import Mathlib

/-!
Shallow embedding of the game core of `server/game/game.go` (the current
occupancy-map tick resolver) together with the round-restart loop of the
historical copy of the same package that carries the game-over logic
(`Start` / `Restart`).  Go `int` is modelled as `Int`; Go maps keyed by id
are modelled as association lists in iteration order, with map update
modelled as replace-in-place-or-append; randomness (`rand.Intn` draws) is
modelled as an explicit stream parameter.
-/

/-- The `Player` struct of game.go. -/
structure Player where
  id : String
  name : String
  x : Int
  y : Int
  score : Int
deriving Repr, DecidableEq

/-- The `Sweet` struct of game.go (a collectible). -/
structure Sweet where
  id : String
  x : Int
  y : Int
deriving Repr, DecidableEq

/-- The `Command` struct of game.go. -/
structure Command where
  playerID : String
  type : String
  dir : String
  x : Int
  y : Int
deriving Repr, DecidableEq

/-- The mutable state of the `Game` struct of game.go that the claims
concern: grid size, players map, sweets map, tick counter.  Channels and
the mutex are not state; the command queue is passed explicitly where it
matters. -/
structure Game where
  W : Int
  H : Int
  players : List Player
  sweets : List Sweet
  tick : Int
deriving Repr, DecidableEq

/-- Discrete events pushed on `EventBroadcast`: the "collected" event of
`applyCommands` and the "game_over" event of the loop in `Start`
(historical copy).  A game-over carries each live player's
(id, name, score). -/
inductive Event where
  | collected (player sweet : String) (tick : Int)
  | gameOver (scores : List (String × String × Int))
deriving Repr, DecidableEq

/-- Source helper `min` of game.go. -/
def goMin (a b : Int) : Int := if a < b then a else b

/-- Source helper `max` of game.go. -/
def goMax (a b : Int) : Int := if a > b then a else b

/-- Source helper `clamp` of game.go. -/
def clamp (v a b : Int) : Int := if v < a then a else if v > b then b else v

/-- Go map lookup `g.players[id]`. -/
def findPlayer (players : List Player) (id : String) : Option Player :=
  players.find? (fun p => p.id = id)

/-- Go map assignment `g.players[id] = p`: replace the entry with that key
if present, otherwise append a new entry. -/
def mapSetPlayer (players : List Player) (p : Player) : List Player :=
  if players.any (fun q => q.id = p.id) then
    players.map (fun q => if q.id = p.id then p else q)
  else players ++ [p]

/-- Go map assignment `g.sweets[id] = s`. -/
def mapSetSweet (sweets : List Sweet) (s : Sweet) : List Sweet :=
  if sweets.any (fun t => t.id = s.id) then
    sweets.map (fun t => if t.id = s.id then s else t)
  else sweets ++ [s]

/-- The occupancy map `occupied : map[[2]int]string` of `applyCommands`,
as an association list with unique keys. -/
abbrev Occ := List ((Int × Int) × String)

/-- Occupancy map lookup. -/
def occLookup (m : Occ) (k : Int × Int) : Option String :=
  (m.find? (fun e => e.1 = k)).map (fun e => e.2)

/-- Occupancy map `delete`. -/
def occErase (m : Occ) (k : Int × Int) : Occ :=
  m.filter (fun e => e.1 ≠ k)

/-- Occupancy map assignment (overwrites any entry at the key). -/
def occInsert (m : Occ) (k : Int × Int) (v : String) : Occ :=
  (k, v) :: occErase m k

/-- Builds `occupied[[2]int]` mapping each current player cell to its id (the
build loop at the top of the locked section of `applyCommands`). -/
def occOf (players : List Player) : Occ :=
  players.foldl (fun m p => occInsert m (p.x, p.y) p.id) []

/-- The `entry` record of `applyCommands`: a player id together with the
arrival index of that player's winning (last) command this tick.  The
command itself (from the `last` map) is carried along. -/
structure Entry where
  id : String
  idx : Nat
  cmd : Command
deriving Repr, DecidableEq

/-- One step of the loop `for idx, c := range cmds` that fills the Go maps
`last` and `lastIndex`: the entry keyed by `c.PlayerID` is overwritten with
the current command and index (or created). -/
def updLast (m : List Entry) (i : Nat) (c : Command) : List Entry :=
  if m.any (fun e => e.id = c.playerID) then
    m.map (fun e => if e.id = c.playerID then ⟨c.playerID, i, c⟩ else e)
  else m ++ [⟨c.playerID, i, c⟩]

/-- The loop `for idx, c := range cmds { last[...]=c; lastIndex[...]=idx }`
with the running index made explicit. -/
def lastEntriesGo (i : Nat) (m : List Entry) : List Command → List Entry
  | [] => m
  | c :: rest => lastEntriesGo (i + 1) (updLast m i c) rest

/-- The combined `last` / `lastIndex` maps built from the drained command
slice. -/
def lastEntries (cmds : List Command) : List Entry :=
  lastEntriesGo 0 [] cmds

/-- Models `sort.Slice` by ascending `idx`:
since every surviving player's arrival index is distinct, the result of the
(unstable) sort is the unique ordering by ascending index; we model it with
insertion sort on `idx ≤ idx`. -/
def sortEntries (l : List Entry) : List Entry :=
  l.insertionSort (fun a b => a.idx ≤ b.idx)

instance : IsTotal Entry (fun a b => a.idx ≤ b.idx) :=
  ⟨fun a b => Nat.le_total a.idx b.idx⟩

instance : IsTrans Entry (fun a b => a.idx ≤ b.idx) :=
  ⟨fun _ _ _ h1 h2 => Nat.le_trans h1 h2⟩

/-- The ordered per-player winning commands a tick processes. -/
def entriesOf (cmds : List Command) : List Entry :=
  sortEntries (lastEntries cmds)

/-- The destination computation of `applyCommands` (`nx, ny := p.X, p.Y`
followed by the `switch c.Type` / `switch c.Dir`). -/
def computeDest (g : Game) (p : Player) (c : Command) : Int × Int :=
  if c.type = "move" then
    if c.dir = "up" then (p.x, goMax 0 (p.y - 1))
    else if c.dir = "down" then (p.x, goMin (g.H - 1) (p.y + 1))
    else if c.dir = "left" then (goMax 0 (p.x - 1), p.y)
    else if c.dir = "right" then (goMin (g.W - 1) (p.x + 1), p.y)
    else (p.x, p.y)
  else if c.type = "move_abs" then
    (clamp c.x 0 (g.W - 1), clamp c.y 0 (g.H - 1))
  else (p.x, p.y)

/-- Mutation `p.X, p.Y = nx, ny` through the pointer stored in the players
map: the entry with that id gets the new coordinates. -/
def setPos (players : List Player) (id : String) (pos : Int × Int) : List Player :=
  players.map (fun q => if q.id = id then { q with x := pos.1, y := pos.2 } else q)

/-- Mutation `p.Score++` through the pointer stored in the players map. -/
def addScore (players : List Player) (id : String) : List Player :=
  players.map (fun q => if q.id = id then { q with score := q.score + 1 } else q)

/-- The sweep `for sid, s := range g.sweets { if s.X == p.X && s.Y == p.Y }`:
first sweet (in iteration order) at the given cell. -/
def findSweetAt (sweets : List Sweet) (pos : Int × Int) : Option String :=
  (sweets.find? (fun s => s.x = pos.1 ∧ s.y = pos.2)).map (fun s => s.id)

/-- Map removal `delete(g.sweets, sid)`. -/
def eraseSweet (sweets : List Sweet) (sid : String) : List Sweet :=
  sweets.filter (fun s => s.id ≠ sid)

/-- The state threaded through the per-entry loop of `applyCommands`. -/
structure RState where
  occ : Occ
  players : List Player
  sweets : List Sweet
  events : List Event
deriving Repr, DecidableEq

/-- The body of `for _, e := range entries` in `applyCommands`: look the
player up (skip unknown ids), compute the destination, reject the move if
the destination is occupied by a different player, otherwise update the
occupancy map and the player's coordinates and collect a sweet at the new
cell if one is there. -/
def resolveStep (g : Game) (st : RState) (e : Entry) : RState :=
  match findPlayer st.players e.id with
  | none => st
  | some p =>
    let d := computeDest g p e.cmd
    let rejected : Bool :=
      match occLookup st.occ d with
      | some occId => occId ≠ p.id
      | none => false
    if rejected then st
    else
      let occ1 := occInsert (occErase st.occ (p.x, p.y)) d p.id
      let players1 := setPos st.players p.id d
      match findSweetAt st.sweets d with
      | some sid =>
        { occ := occ1
          players := addScore players1 p.id
          sweets := eraseSweet st.sweets sid
          events := st.events ++ [Event.collected p.id sid g.tick] }
      | none =>
        { occ := occ1, players := players1, sweets := st.sweets, events := st.events }

/-- The `applyCommands` of game.go applied to the drained command slice.
Returns the updated game state and the emitted "collected" events. -/
def applyCommands (g : Game) (cmds : List Command) : Game × List Event :=
  if cmds = [] then (g, [])
  else
    let st0 : RState := { occ := occOf g.players, players := g.players,
                          sweets := g.sweets, events := [] }
    let st := (entriesOf cmds).foldl (resolveStep g) st0
    ({ g with players := st.players, sweets := st.sweets }, st.events)

/-- The sweet-generation loop shared by `NewGame` and `Restart` (historical
copy): n iterations of `g.sweets[fmt.Sprintf("s%d", i+1)] = &Sweet{...}`
at positions drawn from the random stream `rnd`. -/
def genSweets (n : Nat) (rnd : Nat → Int × Int) : List Sweet :=
  (List.range n).foldl
    (fun ss i => mapSetSweet ss ⟨"s" ++ toString (i + 1), (rnd i).1, (rnd i).2⟩) []

/-- Source `NewGame(w, h, nSweets)` with the random draws made explicit. -/
def NewGame (w h : Int) (n : Nat) (rnd : Nat → Int × Int) : Game :=
  { W := w, H := h, players := [], sweets := genSweets n rnd, tick := 0 }

/-- A cell is free when no live player occupies it (the inner
`for _, p := range g.players` loop of both searches in `AddPlayer`). -/
def freeCell (players : List Player) (c : Int × Int) : Bool :=
  players.all (fun p => ¬(p.x = c.1 ∧ p.y = c.2))

/-- The probe loop of `AddPlayer` (`for i := 0; i < 1000; i++`): succeeds
at the first drawn cell free of players.  `probes` is the stream of random
draws consumed by the loop. -/
def tryProbes (players : List Player) : List (Int × Int) → Option (Int × Int)
  | [] => none
  | pr :: rest =>
    if freeCell players pr then some pr
    else tryProbes players rest

/-- The fallback scan of `AddPlayer`: `for y := 0; y < g.H; y++ { for x := 0;
x < g.W; x++ { ... } }`, cells in that iteration order. -/
def gridCells (w h : Int) : List (Int × Int) :=
  (List.range h.toNat).flatMap
    (fun y => (List.range w.toNat).map (fun x => (Int.ofNat x, Int.ofNat y)))

/-- Source `AddPlayer(name)` of game.go: id from the current map size, up to 1000
random probes (the `probes` stream), then an exhaustive scan; returns the
added player (or `none` for Go's `nil`) and the new state. -/
def AddPlayer (g : Game) (name : String) (probes : List (Int × Int)) :
    Option Player × Game :=
  let id := "p-" ++ toString (g.players.length + 1)
  match tryProbes g.players probes with
  | some pr =>
    let p : Player := ⟨id, name, pr.1, pr.2, 0⟩
    (some p, { g with players := mapSetPlayer g.players p })
  | none =>
    match (gridCells g.W g.H).find? (freeCell g.players) with
    | some cell =>
      let p : Player := ⟨id, name, cell.1, cell.2, 0⟩
      (some p, { g with players := mapSetPlayer g.players p })
    | none => (none, g)

/-- Source `RemovePlayer(id)`: `delete(g.players, id)`. -/
def RemovePlayer (g : Game) (id : String) : Game :=
  { g with players := g.players.filter (fun p => p.id ≠ id) }

/-- Source `Restart` of the historical copy: reset every score to zero and
regenerate 20 sweets from fresh random draws (the pending command queue is
drained by its final loop, modelled at the call site). -/
def Restart (g : Game) (rnd : Nat → Int × Int) : Game :=
  { g with players := g.players.map (fun p => { p with score := 0 }),
           sweets := genSweets 20 rnd }

/-- One iteration of the tick loop in `Start` of the historical copy:
increment the tick, drain-and-apply the queued commands, and if the sweet
count is now zero emit a single game-over event carrying every live
player's score and restart (which also discards `after`, the commands that
arrived after this tick's drain, i.e. during the pause).  Returns the new
game state, the commands still queued, and the events emitted. -/
def tickIteration (rnd : Nat → Int × Int) (g : Game) (cmds after : List Command) :
    Game × List Command × List Event :=
  let g1 := { g with tick := g.tick + 1 }
  let res := applyCommands g1 cmds
  if res.1.sweets.length = 0 then
    (Restart res.1 rnd, [],
      res.2 ++ [Event.gameOver (res.1.players.map (fun p => (p.id, p.name, p.score)))])
  else (res.1, after, res.2)

/-- Spec-side predicate (from the claim's words, for the refinement part of
the tick-resolver claim): `e` records the command of player `e.id` with the
latest arrival position in the drained slice, together with that arrival
index. -/
def IsLastCmd (cmds : List Command) (e : Entry) : Prop :=
  cmds[e.idx]? = some e.cmd ∧ e.cmd.playerID = e.id ∧
    ∀ j, e.idx < j → ∀ c, cmds[j]? = some c → c.playerID ≠ e.id

/-- Player coordinates are inside the grid of `g`. -/
def playerInBounds (g : Game) (p : Player) : Prop :=
  0 ≤ p.x ∧ p.x < g.W ∧ 0 ≤ p.y ∧ p.y < g.H

/-- A pair of coordinates is inside a w×h grid. -/
def cellInBounds (w h : Int) (c : Int × Int) : Prop :=
  0 ≤ c.1 ∧ c.1 < w ∧ 0 ≤ c.2 ∧ c.2 < h

/-- No two distinct live players occupy the same cell. -/
def NoOverlap (players : List Player) : Prop :=
  players.Pairwise (fun p q => (p.x, p.y) ≠ (q.x, q.y))

/-- The players map has pairwise distinct keys (automatic for a Go map). -/
def IdsNodup (players : List Player) : Prop :=
  (players.map (fun p => p.id)).Nodup

/-- The occupancy map is an accurate picture of the players' current cells:
every player's cell answers that player's id, and every answer corresponds
to a live player on that cell. -/
def OccAccur (occ : Occ) (ps : List Player) : Prop :=
  (∀ p ∈ ps, occLookup occ (p.x, p.y) = some p.id) ∧
  (∀ pos pid, occLookup occ pos = some pid → ∃ p ∈ ps, p.id = pid ∧ (p.x, p.y) = pos)

/-- Whether an event is a game-over event. -/
def Event.isGameOver : Event → Bool
  | Event.gameOver _ => true
  | _ => false



/-! ### Occupancy-map lemmas -/

theorem find?_filter_of_imp {α} (l : List α) (p q : α → Bool)
    (h : ∀ x, p x = true → q x = true) :
    (l.filter q).find? p = l.find? p := by
  induction l with
  | nil => rfl
  | cons a l ih =>
    by_cases hq : q a = true
    · rw [List.filter_cons_of_pos hq]
      cases hpa : p a
      · simp [List.find?, hpa, ih]
      · simp [List.find?, hpa]
    · have hpa : p a = false := by
        cases hpp : p a
        · rfl
        · exact absurd (h a hpp) hq
      have hqf : q a = false := by simpa using hq
      rw [List.filter_cons, hqf]
      simp [List.find?, hpa, ih]

theorem occLookup_occErase (m : Occ) (k pos : Int × Int) :
    occLookup (occErase m k) pos = if pos = k then none else occLookup m pos := by
  by_cases hp : pos = k
  · subst hp
    have hnone : List.find? (fun e => decide (e.1 = pos)) (occErase m pos) = none := by
      apply List.find?_eq_none.2
      intro x hx
      have hx2 := (List.mem_filter.1 hx).2
      simpa using hx2
    simp [occLookup, hnone]
  · rw [if_neg hp]
    unfold occLookup occErase
    rw [find?_filter_of_imp]
    intro x hx
    simp only [decide_eq_true_eq] at hx
    simp only [ne_eq, decide_eq_true_eq, decide_not, Bool.not_eq_true', decide_eq_false_iff_not]
    rw [hx]
    exact hp

theorem occLookup_occInsert (m : Occ) (k pos : Int × Int) (v : String) :
    occLookup (occInsert m k v) pos = if pos = k then some v else occLookup m pos := by
  by_cases hp : pos = k
  · subst hp
    simp [occInsert, occLookup, List.find?]
  · rw [if_neg hp]
    have hkp : (decide ((k, v).1 = pos)) = false := by
      simp only [decide_eq_false_iff_not]
      exact fun h => hp h.symm
    calc occLookup (occInsert m k v) pos
        = occLookup (occErase m k) pos := by
          simp [occInsert, occLookup, List.find?, hkp]
      _ = occLookup m pos := by rw [occLookup_occErase, if_neg hp]

theorem occLookup_foldl (ps : List Player) (m0 : Occ) (pos : Int × Int) :
    occLookup (ps.foldl (fun m p => occInsert m (p.x, p.y) p.id) m0) pos =
      match ps.reverse.find? (fun p => decide ((p.x, p.y) = pos)) with
      | some p => some p.id
      | none => occLookup m0 pos := by
  induction ps generalizing m0 with
  | nil => simp
  | cons p rest ih =>
    rw [List.foldl_cons, ih]
    have happ : (p :: rest).reverse = rest.reverse ++ [p] := by simp
    rw [happ, List.find?_append]
    cases hfr : rest.reverse.find? (fun p => decide ((p.x, p.y) = pos)) with
    | some q => simp
    | none =>
      simp only [Option.none_orElse]
      cases hpq : decide ((p.x, p.y) = pos) with
      | true =>
        simp only [decide_eq_true_eq] at hpq
        simp [List.find?, hpq, occLookup_occInsert, if_pos hpq.symm]
      | false =>
        simp only [decide_eq_false_iff_not] at hpq
        have : ¬ pos = (p.x, p.y) := fun h => hpq h.symm
        simp [List.find?, occLookup_occInsert, if_neg this, hpq]

/-- Members of a list with pairwise-distinct images are determined by their
image. -/
theorem eq_of_mem_of_map_nodup {α β} {f : α → β} {l : List α}
    (hn : (l.map f).Nodup) {a b : α} (ha : a ∈ l) (hb : b ∈ l) (hf : f a = f b) :
    a = b := by
  exact List.inj_on_of_nodup_map hn ha hb hf

theorem nodup_of_map_nodup {α β} {f : α → β} {l : List α}
    (hn : (l.map f).Nodup) : l.Nodup :=
  List.Nodup.of_map f hn

/-- Under the no-overlap invariant, the occupancy map built from the
players maps each player's cell to that player's id. -/
theorem occOf_lookup_self {ps : List Player} (hno : NoOverlap ps)
    {p : Player} (hp : p ∈ ps) :
    occLookup (occOf ps) (p.x, p.y) = some p.id := by
  unfold occOf
  rw [occLookup_foldl]
  have hsymm : Symmetric (fun p q : Player => (p.x, p.y) ≠ (q.x, q.y)) := by
    intro a b h
    exact fun hc => h hc.symm
  have hex : ∃ q ∈ ps.reverse, (fun q : Player => decide ((q.x, q.y) = (p.x, p.y))) q = true := by
    exact ⟨p, List.mem_reverse.2 hp, by simp⟩
  cases hfr : ps.reverse.find? (fun q => decide ((q.x, q.y) = (p.x, p.y))) with
  | none =>
    rw [List.find?_eq_none] at hfr
    obtain ⟨q, hq, hqt⟩ := hex
    exact absurd hqt (hfr q hq)
  | some q =>
    have hqmem : q ∈ ps := List.mem_reverse.1 (List.mem_of_find?_eq_some hfr)
    have hqpos : (q.x, q.y) = (p.x, p.y) := by
      have := List.find?_some hfr
      simpa using this
    have : q = p := by
      by_contra hne
      exact (hno.forall hsymm hqmem hp hne) hqpos
    subst this
    rfl

/-- Whatever the occupancy map built from the players answers corresponds
to a live player on that cell. -/
theorem occOf_lookup_mem {ps : List Player} {pos : Int × Int} {pid : String}
    (h : occLookup (occOf ps) pos = some pid) :
    ∃ p ∈ ps, p.id = pid ∧ (p.x, p.y) = pos := by
  unfold occOf at h
  rw [occLookup_foldl] at h
  cases hfr : ps.reverse.find? (fun p => decide ((p.x, p.y) = pos)) with
  | none => rw [hfr] at h; simp [occLookup] at h
  | some q =>
    rw [hfr] at h
    refine ⟨q, List.mem_reverse.1 (List.mem_of_find?_eq_some hfr), ?_, ?_⟩
    · exact Option.some.inj h
    · have := List.find?_some hfr
      simpa using this

/-! ### Structural lemmas about the players-map mutations -/

theorem setPos_map_id (ps : List Player) (id : String) (pos : Int × Int) :
    (setPos ps id pos).map (fun p => p.id) = ps.map (fun p => p.id) := by
  unfold setPos
  rw [List.map_map]
  apply List.map_congr_left
  intro q hq
  by_cases h : q.id = id <;> simp [h]

theorem addScore_map_id (ps : List Player) (id : String) :
    (addScore ps id).map (fun p => p.id) = ps.map (fun p => p.id) := by
  unfold addScore
  rw [List.map_map]
  apply List.map_congr_left
  intro q hq
  by_cases h : q.id = id <;> simp [h]

/-! ### Equation lemmas for the loop body of applyCommands -/

theorem resolveStep_unknown (g : Game) (st : RState) (e : Entry)
    (h : findPlayer st.players e.id = none) :
    resolveStep g st e = st := by
  simp [resolveStep, h]

theorem resolveStep_rejected (g : Game) (st : RState) (e : Entry) (p : Player)
    (hp : findPlayer st.players e.id = some p) (q : String)
    (hq : occLookup st.occ (computeDest g p e.cmd) = some q) (hne : q ≠ p.id) :
    resolveStep g st e = st := by
  simp [resolveStep, hp, hq, hne]

theorem resolveStep_accept_sweet (g : Game) (st : RState) (e : Entry) (p : Player)
    (hp : findPlayer st.players e.id = some p)
    (hacc : occLookup st.occ (computeDest g p e.cmd) = none ∨
            occLookup st.occ (computeDest g p e.cmd) = some p.id)
    (sid : String) (hs : findSweetAt st.sweets (computeDest g p e.cmd) = some sid) :
    resolveStep g st e =
      { occ := occInsert (occErase st.occ (p.x, p.y)) (computeDest g p e.cmd) p.id
        players := addScore (setPos st.players p.id (computeDest g p e.cmd)) p.id
        sweets := eraseSweet st.sweets sid
        events := st.events ++ [Event.collected p.id sid g.tick] } := by
  rcases hacc with hacc | hacc <;> simp [resolveStep, hp, hacc, hs]

theorem resolveStep_accept_nosweet (g : Game) (st : RState) (e : Entry) (p : Player)
    (hp : findPlayer st.players e.id = some p)
    (hacc : occLookup st.occ (computeDest g p e.cmd) = none ∨
            occLookup st.occ (computeDest g p e.cmd) = some p.id)
    (hs : findSweetAt st.sweets (computeDest g p e.cmd) = none) :
    resolveStep g st e =
      { occ := occInsert (occErase st.occ (p.x, p.y)) (computeDest g p e.cmd) p.id
        players := setPos st.players p.id (computeDest g p e.cmd)
        sweets := st.sweets
        events := st.events } := by
  rcases hacc with hacc | hacc <;> simp [resolveStep, hp, hacc, hs]

/-! ### Preservation of the no-overlap invariant -/

theorem occAccur_addScore {occ : Occ} {ps : List Player} (id : String)
    (h : OccAccur occ ps) : OccAccur occ (addScore ps id) := by
  constructor
  · intro q' hq'
    obtain ⟨q, hq, hfq⟩ := List.mem_map.1 hq'
    have hfields : q'.id = q.id ∧ q'.x = q.x ∧ q'.y = q.y := by
      rw [← hfq]; by_cases hqq : q.id = id <;> simp [hqq]
    rw [hfields.1, hfields.2.1, hfields.2.2]
    exact h.1 q hq
  · intro pos pid hl
    obtain ⟨q, hq, hqid, hqpos⟩ := h.2 pos pid hl
    by_cases hqq : q.id = id
    · exact ⟨{ q with score := q.score + 1 }, List.mem_map.2 ⟨q, hq, by simp [hqq]⟩,
        by simpa using hqid, by simpa using hqpos⟩
    · exact ⟨q, List.mem_map.2 ⟨q, hq, by simp [hqq]⟩, hqid, hqpos⟩

theorem occAccur_accept {st : RState} {p : Player} {d : Int × Int}
    (hids : IdsNodup st.players) (hacc : OccAccur st.occ st.players)
    (hpmem : p ∈ st.players)
    (haccL : occLookup st.occ d = none ∨ occLookup st.occ d = some p.id) :
    OccAccur (occInsert (occErase st.occ (p.x, p.y)) d p.id)
      (setPos st.players p.id d) := by
  constructor
  · intro q' hq'
    obtain ⟨q, hq, hfq⟩ := List.mem_map.1 hq'
    by_cases hqid : q.id = p.id
    · have hqp : q = p := eq_of_mem_of_map_nodup hids hq hpmem hqid
      subst hqp
      have hq'eq : q' = { q with x := d.1, y := d.2 } := by rw [← hfq]; simp [hqid]
      rw [hq'eq]
      simp only
      rw [show ((d.1 : Int), (d.2 : Int)) = d from rfl, occLookup_occInsert, if_pos rfl]
    · have hq'eq : q' = q := by rw [← hfq]; simp [hqid]
      subst hq'eq
      have hqpos_ne_d : (q'.x, q'.y) ≠ d := by
        intro hcontra
        have h1 := hacc.1 q' hq
        rw [hcontra] at h1
        rcases haccL with h | h
        · rw [h1] at h; cases h
        · rw [h1] at h
          exact hqid (Option.some.inj h)
      have hqpos_ne_p : (q'.x, q'.y) ≠ (p.x, p.y) := by
        intro hcontra
        have h1 := hacc.1 q' hq
        have h2 := hacc.1 p hpmem
        rw [hcontra] at h1
        rw [h1] at h2
        exact hqid (Option.some.inj h2.symm).symm
      rw [occLookup_occInsert, if_neg hqpos_ne_d, occLookup_occErase, if_neg hqpos_ne_p]
      exact hacc.1 q' hq
  · intro pos pid hl
    rw [occLookup_occInsert] at hl
    by_cases hpd : pos = d
    · rw [if_pos hpd] at hl
      have hpid : pid = p.id := (Option.some.inj hl).symm
      refine ⟨{ p with x := d.1, y := d.2 }, ?_, ?_, ?_⟩
      · exact List.mem_map.2 ⟨p, hpmem, by simp⟩
      · simpa using hpid.symm
      · rw [hpd]
    · rw [if_neg hpd, occLookup_occErase] at hl
      by_cases hpp : pos = (p.x, p.y)
      · rw [if_pos hpp] at hl; cases hl
      · rw [if_neg hpp] at hl
        obtain ⟨q, hq, hqid, hqpos⟩ := hacc.2 pos pid hl
        have hqnep : ¬ q.id = p.id := by
          intro hcontra
          have hqp : q = p := eq_of_mem_of_map_nodup hids hq hpmem hcontra
          rw [hqp] at hqpos
          exact hpp hqpos.symm
        exact ⟨q, List.mem_map.2 ⟨q, hq, by simp [hqnep]⟩, hqid, hqpos⟩

theorem occAccur_occOf {ps : List Player} (hno : NoOverlap ps) :
    OccAccur (occOf ps) ps :=
  ⟨fun _ hp => occOf_lookup_self hno hp, fun _ _ h => occOf_lookup_mem h⟩

theorem noOverlap_of_occAccur {occ : Occ} {ps : List Player}
    (hids : IdsNodup ps) (hacc : OccAccur occ ps) : NoOverlap ps := by
  have hnd : ps.Nodup := nodup_of_map_nodup hids
  apply List.Pairwise.imp_of_mem ?_ (hnd)
  intro a b ha hb hab
  intro hcontra
  have h1 := hacc.1 a ha
  rw [hcontra] at h1
  have h2 := hacc.1 b hb
  rw [h2] at h1
  exact hab (eq_of_mem_of_map_nodup hids ha hb (Option.some.inj h1.symm))

theorem resolveStep_inv (g : Game) (st : RState) (e : Entry)
    (hids : IdsNodup st.players) (hacc : OccAccur st.occ st.players) :
    IdsNodup (resolveStep g st e).players ∧
    OccAccur (resolveStep g st e).occ (resolveStep g st e).players := by
  cases hfp : findPlayer st.players e.id with
  | none => rw [resolveStep_unknown g st e hfp]; exact ⟨hids, hacc⟩
  | some p =>
    have hpmem : p ∈ st.players := by
      unfold findPlayer at hfp
      exact List.mem_of_find?_eq_some hfp
    cases hl : occLookup st.occ (computeDest g p e.cmd) with
    | some q =>
      by_cases hqp : q = p.id
      · have haccL : occLookup st.occ (computeDest g p e.cmd) = none ∨
            occLookup st.occ (computeDest g p e.cmd) = some p.id := by
          right; rw [hl, hqp]
        cases hs : findSweetAt st.sweets (computeDest g p e.cmd) with
        | some sid =>
          rw [resolveStep_accept_sweet g st e p hfp haccL sid hs]
          refine ⟨?_, occAccur_addScore p.id (occAccur_accept hids hacc hpmem haccL)⟩
          unfold IdsNodup
          rw [addScore_map_id, setPos_map_id]
          exact hids
        | none =>
          rw [resolveStep_accept_nosweet g st e p hfp haccL hs]
          refine ⟨?_, occAccur_accept hids hacc hpmem haccL⟩
          unfold IdsNodup
          rw [setPos_map_id]
          exact hids
      · rw [resolveStep_rejected g st e p hfp q hl hqp]; exact ⟨hids, hacc⟩
    | none =>
      have haccL : occLookup st.occ (computeDest g p e.cmd) = none ∨
          occLookup st.occ (computeDest g p e.cmd) = some p.id := Or.inl hl
      cases hs : findSweetAt st.sweets (computeDest g p e.cmd) with
      | some sid =>
        rw [resolveStep_accept_sweet g st e p hfp haccL sid hs]
        refine ⟨?_, occAccur_addScore p.id (occAccur_accept hids hacc hpmem haccL)⟩
        unfold IdsNodup
        rw [addScore_map_id, setPos_map_id]
        exact hids
      | none =>
        rw [resolveStep_accept_nosweet g st e p hfp haccL hs]
        refine ⟨?_, occAccur_accept hids hacc hpmem haccL⟩
        unfold IdsNodup
        rw [setPos_map_id]
        exact hids

theorem foldl_resolveStep_inv (g : Game) (entries : List Entry) (st : RState)
    (hids : IdsNodup st.players) (hacc : OccAccur st.occ st.players) :
    IdsNodup (entries.foldl (resolveStep g) st).players ∧
    OccAccur (entries.foldl (resolveStep g) st).occ
      (entries.foldl (resolveStep g) st).players := by
  induction entries generalizing st with
  | nil => exact ⟨hids, hacc⟩
  | cons e rest ih =>
    rw [List.foldl_cons]
    obtain ⟨h1, h2⟩ := resolveStep_inv g st e hids hacc
    exact ih (resolveStep g st e) h1 h2

theorem applyCommands_eq (g : Game) (cmds : List Command) (hc : ¬ cmds = []) :
    applyCommands g cmds =
      ({ g with
          players := ((entriesOf cmds).foldl (resolveStep g)
            ⟨occOf g.players, g.players, g.sweets, []⟩).players
          sweets := ((entriesOf cmds).foldl (resolveStep g)
            ⟨occOf g.players, g.players, g.sweets, []⟩).sweets },
       ((entriesOf cmds).foldl (resolveStep g)
            ⟨occOf g.players, g.players, g.sweets, []⟩).events) := by
  simp [applyCommands, hc]

/-- C2: for every tick, if before command resolution no two distinct live
players occupy the same cell (and the players map has, as every Go map,
distinct keys), then after `applyCommands` completes no two distinct live
players occupy the same cell. -/
theorem c2_no_overlap_preserved (g : Game) (cmds : List Command)
    (hids : IdsNodup g.players) (hno : NoOverlap g.players) :
    NoOverlap (applyCommands g cmds).1.players := by
  by_cases hc : cmds = []
  · simp only [applyCommands, if_pos hc]
    exact hno
  · rw [applyCommands_eq g cmds hc]
    obtain ⟨h1, h2⟩ := foldl_resolveStep_inv g (entriesOf cmds)
      ⟨occOf g.players, g.players, g.sweets, []⟩ hids (occAccur_occOf hno)
    exact noOverlap_of_occAccur h1 h2

/-- Witness for C2 at a concrete two-player conflict tick. -/
theorem c2_witness :
    NoOverlap (applyCommands
      { W := 3, H := 3,
        players := [⟨"p-1", "A", 0, 1, 0⟩, ⟨"p-2", "B", 2, 1, 0⟩],
        sweets := [], tick := 0 }
      [⟨"p-1", "move", "right", 0, 0⟩, ⟨"p-2", "move", "left", 0, 0⟩]).1.players :=
  c2_no_overlap_preserved _ _ (by unfold IdsNodup; decide) (by unfold NoOverlap; decide)

/-! ### Bounds preservation -/

theorem computeDest_inBounds (g : Game) (p : Player) (c : Command)
    (hp : playerInBounds g p) :
    cellInBounds g.W g.H (computeDest g p c) := by
  obtain ⟨hx0, hxW, hy0, hyH⟩ := hp
  unfold computeDest cellInBounds goMin goMax clamp
  split_ifs <;> dsimp only <;> omega

theorem resolveStep_inBounds (g : Game) (st : RState) (e : Entry)
    (h : ∀ p ∈ st.players, playerInBounds g p) :
    ∀ p ∈ (resolveStep g st e).players, playerInBounds g p := by
  intro q' hq'
  unfold resolveStep at hq'
  cases hfp : findPlayer st.players e.id with
  | none => rw [hfp] at hq'; exact h q' hq'
  | some p =>
    rw [hfp] at hq'
    simp only at hq'
    have hpmem : p ∈ st.players := by
      unfold findPlayer at hfp
      exact List.mem_of_find?_eq_some hfp
    have hd : cellInBounds g.W g.H (computeDest g p e.cmd) :=
      computeDest_inBounds g p e.cmd (h p hpmem)
    by_cases hrej : (match occLookup st.occ (computeDest g p e.cmd) with
        | some occId => decide ¬occId = p.id
        | none => false) = true
    · rw [if_pos hrej] at hq'
      exact h q' hq'
    · rw [if_neg hrej] at hq'
      have hsp : ∀ r ∈ setPos st.players p.id (computeDest g p e.cmd),
          playerInBounds g r := by
        intro r hr
        obtain ⟨q, hq, hfq⟩ := List.mem_map.1 hr
        by_cases hqq : q.id = p.id
        · rw [← hfq]
          simp only [hqq, if_pos rfl]
          obtain ⟨h1, h2, h3, h4⟩ := hd
          exact ⟨h1, h2, h3, h4⟩
        · rw [← hfq]
          simp only [hqq, if_neg hqq]
          exact h q hq
      cases hs : findSweetAt st.sweets (computeDest g p e.cmd) with
      | some sid =>
        rw [hs] at hq'
        simp only at hq'
        obtain ⟨q, hq, hfq⟩ := List.mem_map.1 hq'
        have hqb := hsp q hq
        rw [← hfq]
        by_cases hqq : q.id = p.id <;> simp only [hqq, if_pos, if_neg] <;>
          simpa using hqb
      | none =>
        rw [hs] at hq'
        simp only at hq'
        exact hsp q' hq'

theorem foldl_resolveStep_inBounds (g : Game) (entries : List Entry) (st : RState)
    (h : ∀ p ∈ st.players, playerInBounds g p) :
    ∀ p ∈ (entries.foldl (resolveStep g) st).players, playerInBounds g p := by
  induction entries generalizing st with
  | nil => exact h
  | cons e rest ih =>
    rw [List.foldl_cons]
    exact ih (resolveStep g st e) (resolveStep_inBounds g st e h)

/-- C3: the destination of any command — directional, absolute (clamped),
or otherwise — computed for a player whose position is within bounds is
itself within bounds, and consequently a whole tick of `applyCommands`
keeps every player's coordinates within 0 ≤ x < W and 0 ≤ y < H. -/
theorem c3_bounds_invariant :
    (∀ (g : Game) (p : Player) (c : Command), playerInBounds g p →
      cellInBounds g.W g.H (computeDest g p c)) ∧
    (∀ (g : Game) (cmds : List Command),
      (∀ p ∈ g.players, playerInBounds g p) →
      ∀ p ∈ (applyCommands g cmds).1.players, playerInBounds g p) := by
  constructor
  · exact computeDest_inBounds
  · intro g cmds h p hp
    by_cases hc : cmds = []
    · simp only [applyCommands, if_pos hc] at hp
      exact h p hp
    · rw [applyCommands_eq g cmds hc] at hp
      simp only at hp
      exact foldl_resolveStep_inBounds g (entriesOf cmds)
        ⟨occOf g.players, g.players, g.sweets, []⟩ h p hp

/-- Witness for C3: an out-of-range absolute target is clamped into the
grid. -/
theorem c3_witness :
    cellInBounds 3 3 (computeDest
      { W := 3, H := 3, players := [⟨"p-1", "A", 0, 1, 0⟩], sweets := [], tick := 0 }
      ⟨"p-1", "A", 0, 1, 0⟩ ⟨"p-1", "move_abs", "", 99, -7⟩) :=
  c3_bounds_invariant.1 _ _ _ (by unfold playerInBounds; decide)

/-! ### Characterization of the per-tick winning commands -/

theorem mem_updLast {m : List Entry} {i : Nat} {c : Command} {e : Entry} :
    e ∈ updLast m i c ↔ e = ⟨c.playerID, i, c⟩ ∨ (e ∈ m ∧ ¬ e.id = c.playerID) := by
  unfold updLast
  by_cases hany : m.any (fun x => x.id = c.playerID) = true
  · rw [if_pos hany]
    constructor
    · intro he
      obtain ⟨x, hx, hfx⟩ := List.mem_map.1 he
      by_cases hxc : x.id = c.playerID
      · left
        rw [← hfx, if_pos hxc]
      · right
        rw [← hfx, if_neg hxc]
        exact ⟨hx, hxc⟩
    · intro he
      rcases he with he | ⟨hm, hne⟩
      · obtain ⟨x, hx, hxc⟩ := List.any_eq_true.1 hany
        simp only [decide_eq_true_eq] at hxc
        exact List.mem_map.2 ⟨x, hx, by rw [if_pos hxc, he]⟩
      · exact List.mem_map.2 ⟨e, hm, by rw [if_neg hne]⟩
  · rw [if_neg hany]
    rw [List.mem_append, List.mem_singleton]
    constructor
    · intro he
      rcases he with hm | he
      · refine Or.inr ⟨hm, ?_⟩
        intro hc2
        exact hany (List.any_eq_true.2 ⟨e, hm, by simp [hc2]⟩)
      · exact Or.inl he
    · intro he
      rcases he with he | ⟨hm, _⟩
      · exact Or.inr he
      · exact Or.inl hm

theorem lastEntriesGo_append (i : Nat) (m : List Entry) (cmds : List Command)
    (c : Command) :
    lastEntriesGo i m (cmds ++ [c]) =
      updLast (lastEntriesGo i m cmds) (i + cmds.length) c := by
  induction cmds generalizing i m with
  | nil => simp [lastEntriesGo]
  | cons d rest ih =>
    rw [List.cons_append]
    show lastEntriesGo (i + 1) (updLast m i d) (rest ++ [c]) = _
    rw [ih]
    have hlen : (i + 1) + rest.length = i + (d :: rest).length := by
      rw [List.length_cons]
      omega
    rw [hlen]
    rfl

theorem mem_lastEntries_iff {cmds : List Command} {e : Entry} :
    e ∈ lastEntries cmds ↔ IsLastCmd cmds e := by
  induction cmds using List.reverseRecOn with
  | nil =>
    simp [lastEntries, lastEntriesGo, IsLastCmd]
  | append_singleton cmds c ih =>
    have hstep : lastEntries (cmds ++ [c]) = updLast (lastEntries cmds) cmds.length c := by
      unfold lastEntries
      rw [lastEntriesGo_append, Nat.zero_add]
    rw [hstep, mem_updLast, ih]
    constructor
    · intro h
      rcases h with h | ⟨hlast, hne⟩
      · subst h
        refine ⟨?_, rfl, ?_⟩
        · exact List.getElem?_concat_length cmds c
        · intro j hj c' hc'
          have hjlen : j < cmds.length + 1 := by
            have := (List.getElem?_eq_some.1 hc').1
            simpa using this
          dsimp only at hj
          omega
      · obtain ⟨hget, hpid, hlater⟩ := hlast
        have hidx : e.idx < cmds.length := (List.getElem?_eq_some.1 hget).1
        refine ⟨?_, hpid, ?_⟩
        · rw [List.getElem?_append, if_pos hidx]
          exact hget
        · intro j hj c' hc'
          by_cases hjn : j < cmds.length
          · rw [List.getElem?_append, if_pos hjn] at hc'
            exact hlater j hj c' hc'
          · have hjlen : j < cmds.length + 1 := by
              have := (List.getElem?_eq_some.1 hc').1
              simpa using this
            have hjeq : j = cmds.length := by omega
            subst hjeq
            rw [List.getElem?_concat_length] at hc'
            have : c' = c := (Option.some.inj hc').symm
            subst this
            intro hcontra
            exact hne hcontra.symm
    · intro ⟨hget, hpid, hlater⟩
      have hidx : e.idx < cmds.length + 1 := by
        have := (List.getElem?_eq_some.1 hget).1
        simpa using this
      by_cases hn : e.idx = cmds.length
      · left
        rw [hn, List.getElem?_concat_length] at hget
        have hcmd : c = e.cmd := Option.some.inj hget
        cases e with
        | mk id idx cmd =>
          simp only at hn hpid hcmd ⊢
          rw [← hcmd] at hpid
          rw [← hpid, hn, hcmd]
      · have hidx2 : e.idx < cmds.length := by omega
        right
        constructor
        · refine ⟨?_, hpid, ?_⟩
          · rw [List.getElem?_append, if_pos hidx2] at hget
            exact hget
          · intro j hj c' hc'
            have hjlen : j < cmds.length := (List.getElem?_eq_some.1 hc').1
            apply hlater j hj
            rw [List.getElem?_append, if_pos hjlen]
            exact hc'
        · intro hcontra
          have hcn : (cmds ++ [c])[cmds.length]? = some c :=
            List.getElem?_concat_length cmds c
          have := hlater cmds.length (by omega) c hcn
          exact this hcontra.symm

theorem lastEntries_empty_eq : lastEntries [] = [] := rfl

theorem lastEntries_step (cmds : List Command) (c : Command) :
    lastEntries (cmds ++ [c]) = updLast (lastEntries cmds) cmds.length c := by
  unfold lastEntries
  rw [lastEntriesGo_append, Nat.zero_add]

theorem lastEntries_idx_inj {cmds : List Command} {a b : Entry}
    (ha : a ∈ lastEntries cmds) (hb : b ∈ lastEntries cmds)
    (h : a.idx = b.idx) : a = b := by
  obtain ⟨hga, hpa, _⟩ := mem_lastEntries_iff.1 ha
  obtain ⟨hgb, hpb, _⟩ := mem_lastEntries_iff.1 hb
  rw [h] at hga
  rw [hga] at hgb
  have hcmd : a.cmd = b.cmd := Option.some.inj hgb
  have hid : a.id = b.id := by rw [← hpa, ← hpb, hcmd]
  cases a with
  | mk aid aidx acmd =>
    cases b with
    | mk bid bidx bcmd =>
      simp only at h hcmd hid
      rw [h, hcmd, hid]

theorem lastEntries_pairwise_id (cmds : List Command) :
    (lastEntries cmds).Pairwise (fun a b => ¬ a.id = b.id) := by
  induction cmds using List.reverseRecOn with
  | nil => rw [lastEntries_empty_eq]; exact List.Pairwise.nil
  | append_singleton cmds c ih =>
    rw [lastEntries_step]
    unfold updLast
    by_cases hany : (lastEntries cmds).any (fun x => x.id = c.playerID) = true
    · rw [if_pos hany, List.pairwise_map]
      apply ih.imp ?_
      intro a b hab
      by_cases hac : a.id = c.playerID
      · by_cases hbc : b.id = c.playerID
        · exact absurd (hac.trans hbc.symm) hab
        · simp only [if_pos hac, if_neg hbc]
          intro h
          exact hbc h.symm
      · by_cases hbc : b.id = c.playerID
        · simp only [if_neg hac, if_pos hbc]
          intro h
          exact hac h
        · simp only [if_neg hac, if_neg hbc]
          exact hab
    · rw [if_neg hany]
      apply List.pairwise_append.2
      refine ⟨ih, by simp, ?_⟩
      intro a ha b hb
      rw [List.mem_singleton] at hb
      subst hb
      intro hcontra
      exact hany (List.any_eq_true.2 ⟨a, ha, by simp [hcontra]⟩)

theorem lastEntries_pairwise_idx (cmds : List Command) :
    (lastEntries cmds).Pairwise (fun a b => a.idx ≠ b.idx) := by
  apply List.Pairwise.imp_of_mem ?_ (lastEntries_pairwise_id cmds)
  intro a b ha hb hne heq
  exact hne (by rw [lastEntries_idx_inj ha hb heq])

theorem mem_sortEntries {l : List Entry} {e : Entry} :
    e ∈ sortEntries l ↔ e ∈ l :=
  (List.perm_insertionSort (fun a b => a.idx ≤ b.idx) l).mem_iff

theorem mem_entriesOf_iff {cmds : List Command} {e : Entry} :
    e ∈ entriesOf cmds ↔ IsLastCmd cmds e := by
  rw [entriesOf, mem_sortEntries, mem_lastEntries_iff]

theorem entriesOf_sorted (cmds : List Command) :
    (entriesOf cmds).Pairwise (fun a b => a.idx < b.idx) := by
  have hsorted : (entriesOf cmds).Pairwise (fun a b : Entry => a.idx ≤ b.idx) := by
    unfold entriesOf sortEntries
    exact List.sorted_insertionSort (fun a b : Entry => a.idx ≤ b.idx) (lastEntries cmds)
  have hperm : (entriesOf cmds).Perm (lastEntries cmds) := by
    unfold entriesOf sortEntries
    exact List.perm_insertionSort (fun a b : Entry => a.idx ≤ b.idx) (lastEntries cmds)
  have hne : (entriesOf cmds).Pairwise (fun a b => a.idx ≠ b.idx) := by
    refine (List.Perm.pairwise_iff ?_ hperm).2 (lastEntries_pairwise_idx cmds)
    intro x y h
    exact h.symm
  exact (hsorted.and hne).imp (fun h => Nat.lt_of_le_of_ne h.1 h.2)

theorem setPos_moves {ps : List Player} {pid : String} {d : Int × Int} :
    ∀ q ∈ setPos ps pid d, q.id = pid → (q.x, q.y) = d := by
  intro q hq hqid
  obtain ⟨r, hr, hfr⟩ := List.mem_map.1 hq
  by_cases hrp : r.id = pid
  · rw [← hfr, if_pos hrp]
  · rw [← hfr, if_neg hrp] at hqid ⊢
    exact absurd hqid hrp

theorem resolveStep_accept_moves (g : Game) (st : RState) (e : Entry) (p : Player)
    (hfp : findPlayer st.players e.id = some p)
    (haccL : occLookup st.occ (computeDest g p e.cmd) = none ∨
             occLookup st.occ (computeDest g p e.cmd) = some p.id) :
    ∀ q ∈ (resolveStep g st e).players, q.id = p.id →
      (q.x, q.y) = computeDest g p e.cmd := by
  intro q hq hqid
  cases hs : findSweetAt st.sweets (computeDest g p e.cmd) with
  | some sid =>
    rw [resolveStep_accept_sweet g st e p hfp haccL sid hs] at hq
    simp only at hq
    obtain ⟨r, hr, hfr⟩ := List.mem_map.1 hq
    have hfields : q.id = r.id ∧ q.x = r.x ∧ q.y = r.y := by
      rw [← hfr]
      by_cases hrp : r.id = p.id <;> simp [hrp]
    have := setPos_moves r hr (by rw [← hfields.1]; exact hqid)
    rw [hfields.2.1, hfields.2.2]
    exact this
  | none =>
    rw [resolveStep_accept_nosweet g st e p hfp haccL hs] at hq
    simp only at hq
    exact setPos_moves q hq hqid

/-- C1: the tick resolver (i) keeps exactly one command per player, namely
the one at the latest arrival position in the drained queue, (ii) processes
the surviving players in strictly ascending order of that winning command's
arrival index, (iii) rejects a move whose destination cell is occupied in
the occupancy map by a different player (the state is left untouched) and
accepts a move to a free cell or the mover's own cell (the mover ends on
the destination cell), and (iv)+(v) in the two-player race for the
collectible at (1,1), whichever player's command is enqueued first reaches
(1,1) and scores 1 while the other stays put with score 0 — in both
enqueue orders. -/
theorem c1_resolver_behaviour :
    (∀ (cmds : List Command) (e : Entry), e ∈ entriesOf cmds ↔ IsLastCmd cmds e) ∧
    (∀ cmds : List Command, (entriesOf cmds).Pairwise (fun a b => a.idx < b.idx)) ∧
    (∀ (g : Game) (st : RState) (e : Entry) (p : Player),
      findPlayer st.players e.id = some p →
      (∀ q : String, occLookup st.occ (computeDest g p e.cmd) = some q → ¬ q = p.id →
        resolveStep g st e = st) ∧
      ((occLookup st.occ (computeDest g p e.cmd) = none ∨
        occLookup st.occ (computeDest g p e.cmd) = some p.id) →
        ∀ q ∈ (resolveStep g st e).players, q.id = p.id →
          (q.x, q.y) = computeDest g p e.cmd)) ∧
    (applyCommands
      { W := 3, H := 3,
        players := [⟨"p-1", "A", 0, 1, 0⟩, ⟨"p-2", "B", 2, 1, 0⟩],
        sweets := [⟨"s1", 1, 1⟩], tick := 7 }
      [⟨"p-1", "move", "right", 0, 0⟩, ⟨"p-2", "move", "left", 0, 0⟩] =
      ({ W := 3, H := 3,
         players := [⟨"p-1", "A", 1, 1, 1⟩, ⟨"p-2", "B", 2, 1, 0⟩],
         sweets := [], tick := 7 },
       [Event.collected "p-1" "s1" 7])) ∧
    (applyCommands
      { W := 3, H := 3,
        players := [⟨"p-1", "A", 0, 1, 0⟩, ⟨"p-2", "B", 2, 1, 0⟩],
        sweets := [⟨"s1", 1, 1⟩], tick := 7 }
      [⟨"p-2", "move", "left", 0, 0⟩, ⟨"p-1", "move", "right", 0, 0⟩] =
      ({ W := 3, H := 3,
         players := [⟨"p-1", "A", 0, 1, 0⟩, ⟨"p-2", "B", 1, 1, 1⟩],
         sweets := [], tick := 7 },
       [Event.collected "p-2" "s1" 7])) := by
  refine ⟨fun cmds e => mem_entriesOf_iff, entriesOf_sorted, ?_, by decide, by decide⟩
  intro g st e p hfp
  constructor
  · intro q hq hne
    exact resolveStep_rejected g st e p hfp q hq hne
  · intro haccL
    exact resolveStep_accept_moves g st e p hfp haccL

/-- Witness for C1: a concrete rejected move (destination occupied by the
other player) leaves the resolver state unchanged, via the theorem's
rejection clause. -/
theorem c1_witness :
    resolveStep
      { W := 3, H := 3, players := [], sweets := [], tick := 0 }
      { occ := occOf [⟨"p-1", "A", 1, 1, 0⟩, ⟨"p-2", "B", 2, 1, 0⟩],
        players := [⟨"p-1", "A", 1, 1, 0⟩, ⟨"p-2", "B", 2, 1, 0⟩],
        sweets := [], events := [] }
      ⟨"p-2", 0, ⟨"p-2", "move", "left", 0, 0⟩⟩ =
    { occ := occOf [⟨"p-1", "A", 1, 1, 0⟩, ⟨"p-2", "B", 2, 1, 0⟩],
      players := [⟨"p-1", "A", 1, 1, 0⟩, ⟨"p-2", "B", 2, 1, 0⟩],
      sweets := [], events := [] } :=
  ((c1_resolver_behaviour.2.2.1 _ _ _ ⟨"p-2", "B", 2, 1, 0⟩ (by decide)).1
    "p-1" (by decide) (by decide))

/-! ### AddPlayer: GridFull characterization -/

theorem tryProbes_eq_none {ps : List Player} {probes : List (Int × Int)} :
    tryProbes ps probes = none ↔ ∀ pr ∈ probes, freeCell ps pr = false := by
  induction probes with
  | nil => simp [tryProbes]
  | cons pr rest ih =>
    unfold tryProbes
    by_cases hf : freeCell ps pr = true
    · simp [hf]
    · have hff : freeCell ps pr = false := by simpa using hf
      simp [hff, ih]

theorem tryProbes_eq_some {ps : List Player} {probes : List (Int × Int)}
    {pr : Int × Int} (h : tryProbes ps probes = some pr) :
    pr ∈ probes ∧ freeCell ps pr = true := by
  induction probes with
  | nil => simp [tryProbes] at h
  | cons q rest ih =>
    unfold tryProbes at h
    by_cases hf : freeCell ps q = true
    · rw [if_pos hf] at h
      have : q = pr := Option.some.inj h
      subst this
      exact ⟨List.mem_cons_self q rest, hf⟩
    · rw [if_neg hf] at h
      obtain ⟨hm, hfr⟩ := ih h
      exact ⟨List.mem_cons_of_mem q hm, hfr⟩

theorem mem_gridCells {w h : Int} {c : Int × Int} :
    c ∈ gridCells w h ↔ cellInBounds w h c := by
  cases c with
  | mk x y =>
    unfold gridCells cellInBounds
    simp only [List.mem_flatMap, List.mem_map, List.mem_range, Prod.mk.injEq,
      Int.ofNat_eq_natCast]
    constructor
    · rintro ⟨yn, hyn, xn, hxn, hx, hy⟩
      refine ⟨?_, ?_, ?_, ?_⟩ <;> omega
    · rintro ⟨hx0, hxw, hy0, hyh⟩
      exact ⟨y.toNat, by omega, x.toNat, by omega, by omega, by omega⟩

/-- C7: `AddPlayer` fails (Go `nil`, GridFull) iff — after the thousand
random probes and the full deterministic scan — no cell free of players
exists, i.e. every in-bounds cell is occupied by a live player; and
whenever it succeeds, the new player sits on a cell free of the other
players and has score 0. -/
theorem c7_grid_full (g : Game) (name : String) (probes : List (Int × Int))
    (_hlen : probes.length = 1000)
    (hpr : ∀ pr ∈ probes, cellInBounds g.W g.H pr) :
    ((AddPlayer g name probes).1 = none ↔
      ∀ c : Int × Int, cellInBounds g.W g.H c → freeCell g.players c = false) ∧
    (∀ p : Player, (AddPlayer g name probes).1 = some p →
      freeCell g.players (p.x, p.y) = true ∧ p.score = 0) := by
  constructor
  · constructor
    · intro hnone c hc
      unfold AddPlayer at hnone
      cases htp : tryProbes g.players probes with
      | some pr => rw [htp] at hnone; simp at hnone
      | none =>
        rw [htp] at hnone
        cases hfs : (gridCells g.W g.H).find? (freeCell g.players) with
        | some cell => rw [hfs] at hnone; simp at hnone
        | none =>
          have hall := List.find?_eq_none.1 hfs
          have hmem : c ∈ gridCells g.W g.H := mem_gridCells.2 hc
          have := hall c hmem
          simpa using this
    · intro hocc
      unfold AddPlayer
      have htp : tryProbes g.players probes = none := by
        rw [tryProbes_eq_none]
        intro pr hprm
        exact hocc pr (hpr pr hprm)
      have hfs : (gridCells g.W g.H).find? (freeCell g.players) = none := by
        rw [List.find?_eq_none]
        intro c hcm
        rw [hocc c (mem_gridCells.1 hcm)]
        simp
      rw [htp, hfs]
  · intro p hp
    unfold AddPlayer at hp
    cases htp : tryProbes g.players probes with
    | some pr =>
      rw [htp] at hp
      simp only at hp
      obtain ⟨_, hfree⟩ := tryProbes_eq_some htp
      have hpeq : p = ⟨"p-" ++ toString (g.players.length + 1), name, pr.1, pr.2, 0⟩ :=
        (Option.some.inj hp).symm
      rw [hpeq]
      exact ⟨hfree, rfl⟩
    | none =>
      rw [htp] at hp
      cases hfs : (gridCells g.W g.H).find? (freeCell g.players) with
      | some cell =>
        rw [hfs] at hp
        simp only at hp
        have hfree : freeCell g.players cell = true := List.find?_some hfs
        have hpeq : p = ⟨"p-" ++ toString (g.players.length + 1), name, cell.1, cell.2, 0⟩ :=
          (Option.some.inj hp).symm
        rw [hpeq]
        exact ⟨hfree, rfl⟩
      | none =>
        rw [hfs] at hp
        simp at hp

/-- Witness for C7: a 1×1 grid occupied by one player rejects the join —
through the theorem's iff — and the fully occupied grid is checked
concretely. -/
theorem c7_witness :
    (AddPlayer
      { W := 1, H := 1, players := [⟨"p-1", "A", 0, 0, 0⟩], sweets := [], tick := 0 }
      "B" (List.replicate 1000 (0, 0))).1 = none :=
  (c7_grid_full _ "B" (List.replicate 1000 (0, 0)) (List.length_replicate 1000 (0, 0))
    (by
      intro pr hpr
      have hpr0 : pr = ((0 : Int), (0 : Int)) := List.eq_of_mem_replicate hpr
      subst hpr0
      unfold cellInBounds
      decide)).1.2
    (by
      intro c hc
      have hcb : (0 : Int) ≤ c.1 ∧ c.1 < 1 ∧ (0 : Int) ≤ c.2 ∧ c.2 < 1 := hc
      have h1 : c.1 = 0 := by omega
      have h2 : c.2 = 0 := by omega
      have hceq : c = ((0 : Int), (0 : Int)) := Prod.ext h1 h2
      rw [hceq]
      decide)

/-! ### Degenerate commands and unknown players -/

theorem setPos_self {ps : List Player} {p : Player} (hids : IdsNodup ps) (hp : p ∈ ps) :
    setPos ps p.id (p.x, p.y) = ps := by
  unfold setPos
  have hpw : ∀ q ∈ ps,
      (if q.id = p.id then { q with x := (p.x, p.y).1, y := (p.x, p.y).2 } else q) = q := by
    intro q hq
    by_cases hqp : q.id = p.id
    · have : q = p := eq_of_mem_of_map_nodup hids hq hp hqp
      subst this
      rw [if_pos hqp]
    · rw [if_neg hqp]
  calc ps.map (fun q => if q.id = p.id then { q with x := (p.x, p.y).1, y := (p.x, p.y).2 } else q)
      = ps.map id := List.map_congr_left hpw
    _ = ps := List.map_id ps

theorem entriesOf_single (c : Command) :
    entriesOf [c] = [⟨c.playerID, 0, c⟩] := rfl

/-- C8: a "move" command with an unrecognized direction, or a command whose
type is neither "move" nor "move_abs", computes a destination equal to the
player's current cell; the move is accepted as a stay-put move and the
collectible check still runs at the current cell, so a player standing on a
collectible's cell collects it (scoring a point without moving), while with
no collectible there the tick changes nothing. -/
theorem c8_degenerate_command (g : Game) (c : Command) (p : Player)
    (hids : IdsNodup g.players) (hno : NoOverlap g.players)
    (hfp : findPlayer g.players c.playerID = some p)
    (hbad : (¬ c.type = "move" ∧ ¬ c.type = "move_abs") ∨
            (c.type = "move" ∧ ¬ c.dir = "up" ∧ ¬ c.dir = "down" ∧
             ¬ c.dir = "left" ∧ ¬ c.dir = "right")) :
    computeDest g p c = (p.x, p.y) ∧
    (∀ sid : String, findSweetAt g.sweets (p.x, p.y) = some sid →
      applyCommands g [c] =
        ({ g with players := addScore g.players p.id
                  sweets := eraseSweet g.sweets sid },
         [Event.collected p.id sid g.tick])) ∧
    (findSweetAt g.sweets (p.x, p.y) = none →
      applyCommands g [c] = (g, [])) := by
  have hpmem : p ∈ g.players := by
    unfold findPlayer at hfp
    exact List.mem_of_find?_eq_some hfp
  have hdest : computeDest g p c = (p.x, p.y) := by
    rcases hbad with ⟨ht1, ht2⟩ | ⟨ht, hd1, hd2, hd3, hd4⟩
    · unfold computeDest
      rw [if_neg ht1, if_neg ht2]
    · unfold computeDest
      rw [if_pos ht, if_neg hd1, if_neg hd2, if_neg hd3, if_neg hd4]
  refine ⟨hdest, ?_, ?_⟩
  all_goals
    first
    | (intro sid hsweet
       rw [applyCommands_eq g [c] (by simp), entriesOf_single, List.foldl_cons, List.foldl_nil]
       have hself : occLookup (occOf g.players) (computeDest g p c) = none ∨
           occLookup (occOf g.players) (computeDest g p c) = some p.id := by
         right
         rw [hdest]
         exact occOf_lookup_self hno hpmem
       rw [resolveStep_accept_sweet g ⟨occOf g.players, g.players, g.sweets, []⟩
            ⟨c.playerID, 0, c⟩ p hfp hself sid (by rw [hdest]; exact hsweet)]
       simp only
       rw [hdest, setPos_self hids hpmem]
       rfl)
    | (intro hsweet
       rw [applyCommands_eq g [c] (by simp), entriesOf_single, List.foldl_cons, List.foldl_nil]
       have hself : occLookup (occOf g.players) (computeDest g p c) = none ∨
           occLookup (occOf g.players) (computeDest g p c) = some p.id := by
         right
         rw [hdest]
         exact occOf_lookup_self hno hpmem
       rw [resolveStep_accept_nosweet g ⟨occOf g.players, g.players, g.sweets, []⟩
            ⟨c.playerID, 0, c⟩ p hfp hself (by rw [hdest]; exact hsweet)]
       simp only
       rw [hdest, setPos_self hids hpmem])

/-- Witness for C8: a player standing on a sweet issues a "move" with the
unrecognized direction "jump"; it stays put, collects the sweet and scores. -/
theorem c8_witness :
    applyCommands
      { W := 3, H := 3, players := [⟨"p-1", "A", 1, 1, 0⟩],
        sweets := [⟨"s1", 1, 1⟩], tick := 5 }
      [⟨"p-1", "move", "jump", 0, 0⟩] =
      ({ W := 3, H := 3,
         players := addScore [⟨"p-1", "A", 1, 1, 0⟩] "p-1"
         sweets := eraseSweet [⟨"s1", 1, 1⟩] "s1", tick := 5 },
       [Event.collected "p-1" "s1" 5]) :=
  (c8_degenerate_command
    { W := 3, H := 3, players := [⟨"p-1", "A", 1, 1, 0⟩],
      sweets := [⟨"s1", 1, 1⟩], tick := 5 }
    ⟨"p-1", "move", "jump", 0, 0⟩ ⟨"p-1", "A", 1, 1, 0⟩
    (by unfold IdsNodup; decide) (by unfold NoOverlap; decide)
    (by decide) (by decide)).2.1 "s1" (by decide)

/-- C10: a drained command whose PlayerID matches no live player is
silently skipped: the per-entry loop body leaves the resolver state
untouched, and a tick consisting entirely of such commands returns the
game state — players, collectibles and tick counter — unchanged, with no
events. -/
theorem c10_unknown_player_skipped (g : Game) :
    (∀ (st : RState) (e : Entry), findPlayer st.players e.id = none →
      resolveStep g st e = st) ∧
    (∀ cmds : List Command,
      (∀ c ∈ cmds, findPlayer g.players c.playerID = none) →
      applyCommands g cmds = (g, [])) := by
  constructor
  · exact resolveStep_unknown g
  · intro cmds hall
    by_cases hc : cmds = []
    · simp [applyCommands, hc]
    · rw [applyCommands_eq g cmds hc]
      have hent : ∀ e ∈ entriesOf cmds, findPlayer g.players e.id = none := by
        intro e he
        obtain ⟨hget, hpid, _⟩ := mem_entriesOf_iff.1 he
        obtain ⟨hlt, hg⟩ := List.getElem?_eq_some.1 hget
        have hcm : e.cmd ∈ cmds := by
          rw [← hg]
          exact List.getElem_mem hlt
        rw [← hpid]
        exact hall e.cmd hcm
      have hfold : ∀ (l : List Entry),
          (∀ e ∈ l, findPlayer g.players e.id = none) →
          l.foldl (resolveStep g) ⟨occOf g.players, g.players, g.sweets, []⟩ =
            ⟨occOf g.players, g.players, g.sweets, []⟩ := by
        intro l
        induction l with
        | nil => intro _; rfl
        | cons e rest ih =>
          intro hl
          rw [List.foldl_cons,
            resolveStep_unknown g _ e (hl e (List.mem_cons_self e rest))]
          exact ih (fun e' he' => hl e' (List.mem_cons_of_mem e he'))
      rw [hfold (entriesOf cmds) hent]

/-- Witness for C10: a tick whose only command names a ghost player leaves
the concrete game untouched. -/
theorem c10_witness :
    applyCommands
      { W := 3, H := 3, players := [⟨"p-1", "A", 1, 1, 0⟩],
        sweets := [⟨"s1", 0, 0⟩], tick := 9 }
      [⟨"ghost", "move", "up", 0, 0⟩] =
      ({ W := 3, H := 3, players := [⟨"p-1", "A", 1, 1, 0⟩],
         sweets := [⟨"s1", 0, 0⟩], tick := 9 }, []) :=
  (c10_unknown_player_skipped _).2 _ (by decide)

/-! ### AddPlayer id reuse after removal -/

/-- C5 (refutation of the claim on the code): on a 2×2 grid, after
AddPlayer "A" (id p-1), AddPlayer "B" (id p-2), RemovePlayer "p-1", the
next AddPlayer "C" recomputes id "p-" + (map size + 1) = "p-2" and the map
assignment silently replaces live player B: the final players map holds a
single player, "p-2" now bound to C, though B was never removed. -/
theorem c5_duplicate_id_overwrites :
    (AddPlayer
      (RemovePlayer
        (AddPlayer
          (AddPlayer
            { W := 2, H := 2, players := [], sweets := [], tick := 0 }
            "A" [(0, 0)]).2
          "B" [(1, 0)]).2
        "p-1")
      "C" [(0, 0)]).2.players = [⟨"p-2", "C", 0, 0, 0⟩] ∧
    (AddPlayer
      (RemovePlayer
        (AddPlayer
          (AddPlayer
            { W := 2, H := 2, players := [], sweets := [], tick := 0 }
            "A" [(0, 0)]).2
          "B" [(1, 0)]).2
        "p-1")
      "C" [(0, 0)]).1 = some ⟨"p-2", "C", 0, 0, 0⟩ ∧
    (RemovePlayer
        (AddPlayer
          (AddPlayer
            { W := 2, H := 2, players := [], sweets := [], tick := 0 }
            "A" [(0, 0)]).2
          "B" [(1, 0)]).2
        "p-1").players = [⟨"p-2", "B", 1, 0, 0⟩] := by decide

/-! ### AddPlayer frame effects -/

theorem mapSetPlayer_fresh {ps : List Player} {p : Player}
    (h : ∀ q ∈ ps, ¬ q.id = p.id) :
    mapSetPlayer ps p = ps ++ [p] := by
  unfold mapSetPlayer
  rw [if_neg]
  intro hany
  obtain ⟨q, hq, hqe⟩ := List.any_eq_true.1 hany
  exact h q hq (by simpa using hqe)

/-- C9 (refutation of the claim on the code): in the id-collision run of
the duplicate-id bug, AddPlayer changes the pre-existing entry bound to
"p-2" — its name and position — so AddPlayer does not always leave
pre-existing players unchanged. -/
theorem c9_frame_violation :
    findPlayer
      (AddPlayer
        (RemovePlayer
          (AddPlayer
            (AddPlayer
              { W := 2, H := 2, players := [], sweets := [], tick := 0 }
              "A" [(0, 0)]).2
            "B" [(1, 0)]).2
          "p-1")
        "C" [(0, 0)]).2.players "p-2" = some ⟨"p-2", "C", 0, 0, 0⟩ ∧
    findPlayer
      (RemovePlayer
        (AddPlayer
          (AddPlayer
            { W := 2, H := 2, players := [], sweets := [], tick := 0 }
            "A" [(0, 0)]).2
          "B" [(1, 0)]).2
        "p-1").players "p-2" = some ⟨"p-2", "B", 1, 0, 0⟩ := by decide

/-- C9 (amended): whenever the generated id "p-" + (map size + 1) is not
already bound to a live player — in particular in any run without
removals — AddPlayer only appends its new entry: the collectible set and
every pre-existing player are untouched, and the new player starts with
score 0 even when spawned on a collectible's cell (nothing is collected).
On failure the state is unchanged. -/
theorem c9_addPlayer_frame (g : Game) (name : String) (probes : List (Int × Int))
    (hfresh : ∀ q ∈ g.players, ¬ q.id = "p-" ++ toString (g.players.length + 1)) :
    (∀ (p : Player) (g2 : Game), AddPlayer g name probes = (some p, g2) →
      g2.sweets = g.sweets ∧ g2.players = g.players ++ [p] ∧ p.score = 0) ∧
    (∀ g2 : Game, AddPlayer g name probes = (none, g2) → g2 = g) := by
  constructor
  · intro p g2 hadd
    unfold AddPlayer at hadd
    cases htp : tryProbes g.players probes with
    | some pr =>
      rw [htp] at hadd
      simp only [Prod.mk.injEq] at hadd
      obtain ⟨hp, hg2⟩ := hadd
      have hpv : p = ⟨"p-" ++ toString (g.players.length + 1), name, pr.1, pr.2, 0⟩ :=
        (Option.some.inj hp).symm
      rw [← hg2]
      refine ⟨rfl, ?_, by rw [hpv]⟩
      simp only
      rw [hpv, mapSetPlayer_fresh]
      intro q hq
      exact hfresh q hq
    | none =>
      rw [htp] at hadd
      cases hfs : (gridCells g.W g.H).find? (freeCell g.players) with
      | some cell =>
        rw [hfs] at hadd
        simp only [Prod.mk.injEq] at hadd
        obtain ⟨hp, hg2⟩ := hadd
        have hpv : p = ⟨"p-" ++ toString (g.players.length + 1), name, cell.1, cell.2, 0⟩ :=
          (Option.some.inj hp).symm
        rw [← hg2]
        refine ⟨rfl, ?_, by rw [hpv]⟩
        simp only
        rw [hpv, mapSetPlayer_fresh]
        intro q hq
        exact hfresh q hq
      | none =>
        rw [hfs] at hadd
        simp at hadd
  · intro g2 hadd
    unfold AddPlayer at hadd
    cases htp : tryProbes g.players probes with
    | some pr => rw [htp] at hadd; simp at hadd
    | none =>
      rw [htp] at hadd
      cases hfs : (gridCells g.W g.H).find? (freeCell g.players) with
      | some cell => rw [hfs] at hadd; simp at hadd
      | none =>
        rw [hfs] at hadd
        simp only [Prod.mk.injEq] at hadd
        exact hadd.2.symm

/-- Witness for C9: a player spawned on the collectible's cell leaves the
collectible live, appends the single new entry, and starts at score 0. -/
theorem c9_witness :
    ({ W := 2, H := 2, players := [⟨"p-1", "A", 0, 0, 0⟩],
       sweets := [⟨"s1", 0, 0⟩], tick := 0 } : Game).sweets =
      ({ W := 2, H := 2, players := [], sweets := [⟨"s1", 0, 0⟩], tick := 0 } : Game).sweets ∧
    ({ W := 2, H := 2, players := [⟨"p-1", "A", 0, 0, 0⟩],
       sweets := [⟨"s1", 0, 0⟩], tick := 0 } : Game).players =
      ({ W := 2, H := 2, players := [], sweets := [⟨"s1", 0, 0⟩], tick := 0 } : Game).players ++
        [⟨"p-1", "A", 0, 0, 0⟩] ∧
    (⟨"p-1", "A", 0, 0, 0⟩ : Player).score = 0 :=
  (c9_addPlayer_frame
    { W := 2, H := 2, players := [], sweets := [⟨"s1", 0, 0⟩], tick := 0 }
    "A" [(0, 0)] (by decide)).1 ⟨"p-1", "A", 0, 0, 0⟩
    { W := 2, H := 2, players := [⟨"p-1", "A", 0, 0, 0⟩],
      sweets := [⟨"s1", 0, 0⟩], tick := 0 } (by decide)

/-! ### Collectible generation -/

theorem mem_mapSetSweet {ss : List Sweet} {t s : Sweet}
    (h : s ∈ mapSetSweet ss t) : s ∈ ss ∨ s = t := by
  unfold mapSetSweet at h
  by_cases hany : ss.any (fun u => u.id = t.id) = true
  · rw [if_pos hany] at h
    obtain ⟨u, hu, hfu⟩ := List.mem_map.1 h
    by_cases hut : u.id = t.id
    · rw [if_pos hut] at hfu
      exact Or.inr hfu.symm
    · rw [if_neg hut] at hfu
      exact Or.inl (hfu ▸ hu)
  · rw [if_neg hany] at h
    rcases List.mem_append.1 h with hm | hm
    · exact Or.inl hm
    · exact Or.inr (List.mem_singleton.1 hm)

theorem mem_genSweets {n : Nat} {rnd : Nat → Int × Int} {s : Sweet}
    (h : s ∈ genSweets n rnd) :
    ∃ i < n, s = ⟨"s" ++ toString (i + 1), (rnd i).1, (rnd i).2⟩ := by
  unfold genSweets at h
  have hgen : ∀ (l : List Nat) (acc : List Sweet),
      s ∈ l.foldl (fun ss i =>
        mapSetSweet ss ⟨"s" ++ toString (i + 1), (rnd i).1, (rnd i).2⟩) acc →
      s ∈ acc ∨ ∃ i ∈ l, s = ⟨"s" ++ toString (i + 1), (rnd i).1, (rnd i).2⟩ := by
    intro l
    induction l with
    | nil => intro acc hs; exact Or.inl hs
    | cons j rest ih =>
      intro acc hs
      rw [List.foldl_cons] at hs
      rcases ih _ hs with hacc | ⟨i, hi, hv⟩
      · rcases mem_mapSetSweet hacc with hm | hv
        · exact Or.inl hm
        · exact Or.inr ⟨j, List.mem_cons_self j rest, hv⟩
      · exact Or.inr ⟨i, List.mem_cons_of_mem j hi, hv⟩
  rcases hgen (List.range n) [] h with hm | ⟨i, hi, hv⟩
  · simp at hm
  · exact ⟨i, List.mem_range.1 hi, hv⟩

/-- C6 (refutation of the claim on the code): with a random stream that
draws (0,0) twice, NewGame creates two live collectibles with distinct ids
on the same cell — the generation loop performs no freeness or overlap
check. -/
theorem c6_overlap_counterexample :
    (NewGame 3 3 2 (fun _ => (0, 0))).sweets = [⟨"s1", 0, 0⟩, ⟨"s2", 0, 0⟩] ∧
    ¬ (NewGame 3 3 2 (fun _ => (0, 0))).sweets.Pairwise
        (fun s t => (s.x, s.y) ≠ (t.x, t.y)) := by
  constructor
  · decide
  · intro hpw
    rw [show (NewGame 3 3 2 (fun _ => (0, 0))).sweets =
        [⟨"s1", 0, 0⟩, ⟨"s2", 0, 0⟩] from by decide] at hpw
    have := List.rel_of_pairwise_cons hpw (List.mem_singleton.2 rfl)
    exact this rfl

/-- C6 (amended): collectibles generated by NewGame and by Restart are
placed at the cells drawn from the random stream — hence within bounds
whenever the draws are, as rand.Intn guarantees — but no freeness or
overlap check is performed, so two collectibles may occupy the same cell
(and, at restart, a collectible may land on an occupied cell). -/
theorem c6_sweets_from_draws (w h : Int) (n : Nat) (rnd : Nat → Int × Int)
    (hr : ∀ i < n, cellInBounds w h (rnd i)) :
    ∀ s ∈ (NewGame w h n rnd).sweets,
      ∃ i < n, s.x = (rnd i).1 ∧ s.y = (rnd i).2 ∧ cellInBounds w h (s.x, s.y) := by
  intro s hs
  obtain ⟨i, hi, hv⟩ := mem_genSweets hs
  refine ⟨i, hi, by rw [hv], by rw [hv], ?_⟩
  have := hr i hi
  rw [hv]
  cases hrnd : rnd i with
  | mk a b =>
    rw [hrnd] at this
    exact this

/-- Witness for C6's amended statement at a concrete draw stream. -/
theorem c6_witness :
    ∃ i < 2, (⟨"s1", 0, 0⟩ : Sweet).x = ((fun _ => ((0 : Int), (0 : Int))) i).1 ∧
      (⟨"s1", 0, 0⟩ : Sweet).y = ((fun _ => ((0 : Int), (0 : Int))) i).2 ∧
      cellInBounds 3 3 ((⟨"s1", 0, 0⟩ : Sweet).x, (⟨"s1", 0, 0⟩ : Sweet).y) :=
  c6_sweets_from_draws 3 3 2 (fun _ => (0, 0))
    (by
      intro i _
      show (0 : Int) ≤ 0 ∧ (0 : Int) < 3 ∧ (0 : Int) ≤ 0 ∧ (0 : Int) < 3
      decide)
    ⟨"s1", 0, 0⟩ (by decide)

/-! ### Round completion and restart -/

theorem resolveStep_events_mono (g : Game) (st : RState) (e : Entry) :
    ∀ ev ∈ (resolveStep g st e).events,
      ev ∈ st.events ∨ ∃ pl sd tk, ev = Event.collected pl sd tk := by
  intro ev hev
  unfold resolveStep at hev
  cases hfp : findPlayer st.players e.id with
  | none => rw [hfp] at hev; exact Or.inl hev
  | some p =>
    rw [hfp] at hev
    simp only at hev
    by_cases hrej : (match occLookup st.occ (computeDest g p e.cmd) with
        | some occId => decide ¬occId = p.id
        | none => false) = true
    · rw [if_pos hrej] at hev
      exact Or.inl hev
    · rw [if_neg hrej] at hev
      cases hs : findSweetAt st.sweets (computeDest g p e.cmd) with
      | some sid =>
        rw [hs] at hev
        simp only at hev
        rcases List.mem_append.1 hev with hm | hm
        · exact Or.inl hm
        · exact Or.inr ⟨p.id, sid, g.tick, List.mem_singleton.1 hm⟩
      | none =>
        rw [hs] at hev
        exact Or.inl hev

theorem foldl_events_mono (g : Game) (l : List Entry) (st : RState) :
    ∀ ev ∈ (l.foldl (resolveStep g) st).events,
      ev ∈ st.events ∨ ∃ pl sd tk, ev = Event.collected pl sd tk := by
  induction l generalizing st with
  | nil => intro ev hev; exact Or.inl hev
  | cons e rest ih =>
    intro ev hev
    rw [List.foldl_cons] at hev
    rcases ih (resolveStep g st e) ev hev with hm | hc
    · exact resolveStep_events_mono g st e ev hm
    · exact Or.inr hc

theorem applyCommands_no_gameOver (g : Game) (cmds : List Command) :
    ∀ ev ∈ (applyCommands g cmds).2, Event.isGameOver ev = false := by
  intro ev hev
  by_cases hc : cmds = []
  · simp [applyCommands, hc] at hev
  · rw [applyCommands_eq g cmds hc] at hev
    simp only at hev
    rcases foldl_events_mono g (entriesOf cmds)
      ⟨occOf g.players, g.players, g.sweets, []⟩ ev hev with hm | ⟨pl, sd, tk, hv⟩
    · simp at hm
    · rw [hv]
      rfl

theorem tickIteration_gameOver (rnd : Nat → Int × Int) (g : Game)
    (cmds after : List Command)
    (h : (applyCommands { g with tick := g.tick + 1 } cmds).1.sweets.length = 0) :
    tickIteration rnd g cmds after =
      (Restart (applyCommands { g with tick := g.tick + 1 } cmds).1 rnd, [],
       (applyCommands { g with tick := g.tick + 1 } cmds).2 ++
         [Event.gameOver
           ((applyCommands { g with tick := g.tick + 1 } cmds).1.players.map
             (fun p => (p.id, p.name, p.score)))]) := by
  unfold tickIteration
  rw [if_pos h]

theorem tickIteration_continue (rnd : Nat → Int × Int) (g : Game)
    (cmds after : List Command)
    (h : ¬ (applyCommands { g with tick := g.tick + 1 } cmds).1.sweets.length = 0) :
    tickIteration rnd g cmds after =
      ((applyCommands { g with tick := g.tick + 1 } cmds).1, after,
       (applyCommands { g with tick := g.tick + 1 } cmds).2) := by
  unfold tickIteration
  rw [if_neg h]

/-- C4: in a tick loop iteration (historical copy's `Start`), when the
collectible count reaches zero after command resolution, exactly one
game_over event is emitted — the last event, carrying (id, name, final
score) of every live player — and the state becomes the `Restart` of the
post-tick state with the pause-queued commands (`after`) discarded; when
collectibles remain, no game_over is emitted and the queue survives.
`Restart` itself resets every player's score to zero, keeps the same
players, and regenerates the collectibles from 20 fresh random draws. -/
theorem c4_game_over_restart (rnd : Nat → Int × Int) (g : Game)
    (cmds after : List Command) :
    ((applyCommands { g with tick := g.tick + 1 } cmds).1.sweets.length = 0 →
      (tickIteration rnd g cmds after).2.2 =
        (applyCommands { g with tick := g.tick + 1 } cmds).2 ++
          [Event.gameOver
            ((applyCommands { g with tick := g.tick + 1 } cmds).1.players.map
              (fun p => (p.id, p.name, p.score)))] ∧
      ((tickIteration rnd g cmds after).2.2.filter Event.isGameOver).length = 1 ∧
      (tickIteration rnd g cmds after).1 =
        Restart (applyCommands { g with tick := g.tick + 1 } cmds).1 rnd ∧
      (tickIteration rnd g cmds after).2.1 = []) ∧
    (¬ (applyCommands { g with tick := g.tick + 1 } cmds).1.sweets.length = 0 →
      ((tickIteration rnd g cmds after).2.2.filter Event.isGameOver).length = 0 ∧
      (tickIteration rnd g cmds after).1 =
        (applyCommands { g with tick := g.tick + 1 } cmds).1 ∧
      (tickIteration rnd g cmds after).2.1 = after) ∧
    (∀ g2 : Game,
      (∀ p ∈ (Restart g2 rnd).players, p.score = 0) ∧
      (Restart g2 rnd).players.map (fun p => p.id) = g2.players.map (fun p => p.id) ∧
      (∀ s ∈ (Restart g2 rnd).sweets,
        ∃ i < 20, s.x = (rnd i).1 ∧ s.y = (rnd i).2)) := by
  refine ⟨?_, ?_, ?_⟩
  · intro h
    rw [tickIteration_gameOver rnd g cmds after h]
    refine ⟨rfl, ?_, rfl, rfl⟩
    simp only [List.filter_append]
    have hnone : ((applyCommands { g with tick := g.tick + 1 } cmds).2.filter
        Event.isGameOver) = [] := by
      rw [List.filter_eq_nil_iff]
      intro ev hev
      rw [applyCommands_no_gameOver { g with tick := g.tick + 1 } cmds ev hev]
      simp
    rw [hnone]
    rfl
  · intro h
    rw [tickIteration_continue rnd g cmds after h]
    refine ⟨?_, rfl, rfl⟩
    rw [List.filter_eq_nil_iff.2]
    · rfl
    · intro ev hev
      rw [applyCommands_no_gameOver { g with tick := g.tick + 1 } cmds ev hev]
      simp
  · intro g2
    refine ⟨?_, ?_, ?_⟩
    · intro p hp
      simp only [Restart] at hp
      obtain ⟨q, _, hfq⟩ := List.mem_map.1 hp
      rw [← hfq]
    · simp only [Restart]
      rw [List.map_map]
      rfl
    · intro s hs
      simp only [Restart] at hs
      obtain ⟨i, hi, hv⟩ := mem_genSweets hs
      exact ⟨i, hi, by rw [hv], by rw [hv]⟩

/-- Witness for C4: collecting the last collectible triggers exactly one
game_over in that iteration. -/
theorem c4_witness :
    ((tickIteration (fun _ => (0, 0))
        { W := 3, H := 3, players := [⟨"p-1", "A", 0, 0, 2⟩],
          sweets := [⟨"s1", 1, 0⟩], tick := 0 }
        [⟨"p-1", "move", "right", 0, 0⟩]
        [⟨"p-1", "move", "left", 0, 0⟩]).2.2.filter Event.isGameOver).length = 1 :=
  ((c4_game_over_restart (fun _ => (0, 0))
      { W := 3, H := 3, players := [⟨"p-1", "A", 0, 0, 2⟩],
        sweets := [⟨"s1", 1, 0⟩], tick := 0 }
      [⟨"p-1", "move", "right", 0, 0⟩]
      [⟨"p-1", "move", "left", 0, 0⟩]).1 (by decide)).2.1
